import Mathlib

/-!
Shallow embedding of the cocotbext-umi core: SUMI command opcodes and their
classification table, the 32-bit command header, SUMI transactions
(serialization, truncate-and-pad, opcode-aware equality, transport chunking),
and the reference memory device that answers read/write requests against a
byte-addressable sparse store.

Bytes are modelled as natural numbers, byte strings as lists of naturals,
and the device's dict-backed store as a function from address to an optional
byte (absent keys read as zero through getD, as dict.get(addr, 0) does).
-/

namespace Spec2Proof

/-- A byte of payload or wire data. -/
abbrev Byte := Nat

/-! ### SumiCmdType: UMI command opcodes (CMD[4:0]) -/

def UMI_INVALID : Nat := 0x00
def UMI_REQ_READ : Nat := 0x01
def UMI_REQ_WRITE : Nat := 0x03
def UMI_REQ_POSTED : Nat := 0x05
def UMI_REQ_RDMA : Nat := 0x07
def UMI_REQ_ATOMIC : Nat := 0x09
def UMI_REQ_USER0 : Nat := 0x0B
def UMI_REQ_FUTURE0 : Nat := 0x0D
def UMI_REQ_ERROR : Nat := 0x0F
def UMI_REQ_LINK : Nat := 0x2F
def UMI_RESP_READ : Nat := 0x02
def UMI_RESP_WRITE : Nat := 0x04
def UMI_RESP_USER0 : Nat := 0x06
def UMI_RESP_USER1 : Nat := 0x08
def UMI_RESP_FUTURE0 : Nat := 0x0A
def UMI_RESP_FUTURE1 : Nat := 0x0C
def UMI_RESP_LINK : Nat := 0x0E

/-- SumiCmdType.is_request: membership in the request-opcode list. -/
def is_request (v : Nat) : Bool :=
  decide (v ∈ [UMI_REQ_READ, UMI_REQ_WRITE, UMI_REQ_POSTED, UMI_REQ_RDMA,
               UMI_REQ_ATOMIC, UMI_REQ_USER0, UMI_REQ_FUTURE0, UMI_REQ_ERROR,
               UMI_REQ_LINK])

/-- SumiCmdType.is_response: membership in the response-opcode list. -/
def is_response (v : Nat) : Bool :=
  decide (v ∈ [UMI_RESP_READ, UMI_RESP_WRITE, UMI_RESP_USER0, UMI_RESP_USER1,
               UMI_RESP_FUTURE0, UMI_RESP_FUTURE1, UMI_RESP_LINK])

/-! ### SumiCmd: the 32-bit command header -/

/-- SumiCmd: one field per BitField of the dataclass, each a plain natural
    (the BitField wrapper stores an unsigned value of the declared width). -/
structure SumiCmd where
  cmd_type : Nat := 0
  size : Nat := 0
  len : Nat := 0
  qos : Nat := 0
  prot : Nat := 0
  eom : Nat := 0
  eof : Nat := 0
  ex : Nat := 0
  u : Nat := 0
  hostid : Nat := 0
deriving DecidableEq

/-- Modelled from the spec: BitVector.pack for SumiCmd, since bit_utils.py is
    not among the provided sources. Each field contributes
    (value AND mask) shifted to its offset; the bit ranges are disjoint, so the
    OR of the shifted fields equals their sum. Widths and offsets are those of
    the SumiCmd dataclass in sumi.py. -/
def SumiCmd.pack (c : SumiCmd) : Nat :=
  (c.cmd_type % 2 ^ 5)
    + (c.size % 2 ^ 3) * 2 ^ 5
    + (c.len % 2 ^ 8) * 2 ^ 8
    + (c.qos % 2 ^ 4) * 2 ^ 16
    + (c.prot % 2 ^ 2) * 2 ^ 20
    + (c.eom % 2 ^ 1) * 2 ^ 22
    + (c.eof % 2 ^ 1) * 2 ^ 23
    + (c.ex % 2 ^ 1) * 2 ^ 24
    + (c.u % 2 ^ 2) * 2 ^ 25
    + (c.hostid % 2 ^ 5) * 2 ^ 27

/-- SumiCmd.total_bytes = bytes_per_word * transfer_count
    = (1 <<< size) * (len + 1). -/
def SumiCmd.total_bytes (c : SumiCmd) : Nat :=
  (1 <<< c.size) * (c.len + 1)

/-- Little-endian byte serialization of a natural number into exactly k bytes,
    as int.to_bytes(value, length=k, byteorder=little) produces. -/
def natToBytesLE : Nat → Nat → List Byte
  | 0, _ => []
  | k + 1, n => n % 256 :: natToBytesLE k (n / 256)

/-! ### SumiTransaction -/

/-- SumiTransaction: command header, destination address, source address,
    payload, and the configured address width in bits (default 64). -/
structure SumiTransaction where
  cmd : SumiCmd
  da : Nat
  sa : Nat
  data : List Byte
  addr_width : Nat := 64
deriving DecidableEq

/-- SumiTransaction.header_to_bytes: the packed 32-bit command little-endian
    (4 bytes, modelled from the spec for the absent bit_utils BitVector bytes
    conversion), then da and sa each in addr_width/8 little-endian bytes. -/
def SumiTransaction.header_to_bytes (t : SumiTransaction) : List Byte :=
  natToBytesLE 4 t.cmd.pack
    ++ natToBytesLE (t.addr_width / 8) t.da
    ++ natToBytesLE (t.addr_width / 8) t.sa

/-- SumiTransaction.trunc_and_pad_zeros, translated literally:
    data_len = (len + 1) <<< size, and the new payload is
    zeros(len(data) - data_len) ++ data[:data_len]. Natural-number
    subtraction truncates at zero exactly as the source's list-repeat with a
    negative count produces the empty byte string. -/
def SumiTransaction.trunc_and_pad_zeros (t : SumiTransaction) : SumiTransaction :=
  let data_len := (t.cmd.len + 1) <<< t.cmd.size
  { t with data := List.replicate (t.data.length - data_len) 0 ++ t.data.take data_len }

/-- SumiTransaction equality: packed commands must match; for UMI_RESP_WRITE
    only the destination addresses are compared, otherwise the full packet
    header_to_bytes ++ data is compared on both sides. -/
def SumiTransaction.eq (a b : SumiTransaction) : Bool :=
  if a.cmd.pack = b.cmd.pack then
    if a.cmd.cmd_type = UMI_RESP_WRITE then
      decide (a.da = b.da)
    else
      decide (a.header_to_bytes ++ a.data = b.header_to_bytes ++ b.data)
  else
    false

/-! ### Transport chunking (to_lumi) -/

/-- Modelled from the spec: a transport frame (data, last), the
    valid-ready-data transaction type; vrd_transaction.py is not among the
    provided sources. -/
structure VRDTransaction where
  data : List Byte
  last : Bool
deriving DecidableEq

/-- The consecutive k-sized slices raw[i:i+k] for i in range(0, len(raw), k),
    written with an explicit fuel argument; fuel = raw.length steps suffice
    whenever k is at least one. -/
def chunksGo (k : Nat) : Nat → List Byte → List (List Byte)
  | 0, _ => []
  | _ + 1, [] => []
  | fuel + 1, a :: rest => (a :: rest).take k :: chunksGo k fuel ((a :: rest).drop k)

/-- Zero-pad the final chunk on the right up to k bytes, leaving every other
    chunk untouched (the source's chunks[-1] assignment). -/
def padLast (k : Nat) : List (List Byte) → List (List Byte)
  | [] => []
  | [c] => [c ++ List.replicate (k - c.length) 0]
  | c :: c2 :: cs => c :: padLast k (c2 :: cs)

/-- The raw byte string that to_lumi chunks: the serialized header when
    inc_header, followed by data[:(len+1) <<< size]. -/
def rawBytes (t : SumiTransaction) (inc_header : Bool) : List Byte :=
  (if inc_header then t.header_to_bytes else [])
    ++ t.data.take ((t.cmd.len + 1) <<< t.cmd.size)

/-- The enumerate loop of to_lumi: chunk i becomes a frame whose last flag
    is computed as i = count - 1 and replaced by override_last, when
    supplied, at the final index only. -/
def mkFrames (override_last : Option Bool) (padded : List (List Byte)) :
    List VRDTransaction :=
  padded.enum.map (fun p =>
    ⟨p.2, if p.1 = padded.length - 1 then override_last.getD true else false⟩)

/-- SumiTransaction.to_lumi. Fallible points of the source are modelled as
    none: lumi_size = 0 makes range(0, n, 0) raise, and an empty chunk list
    makes the chunks[-1] subscript raise. Otherwise the final chunk is
    zero-padded to lumi_size and the chunks become frames. -/
def SumiTransaction.to_lumi (t : SumiTransaction) (lumi_size : Nat)
    (inc_header : Bool) (override_last : Option Bool) :
    Option (List VRDTransaction) :=
  if lumi_size = 0 then
    none
  else
    match chunksGo lumi_size (rawBytes t inc_header).length (rawBytes t inc_header) with
    | [] => none
    | c :: cs => some (mkFrames override_last (padLast lumi_size (c :: cs)))

/-! ### UmiMemoryDevice -/

/-- The device's sparse byte store: a dict from address to byte, absent keys
    reading as zero at the call sites that use dict.get(addr, 0). -/
abbrev Mem := Nat → Option Byte

/-- The empty store. -/
def emptyMem : Mem := fun _ => none

/-- Store one byte: memory[a] = v. -/
def memWrite (m : Mem) (a v : Nat) : Mem :=
  fun x => if x = a then some v else m x

/-- The write loop: for each of count iterations starting at index i,
    memory[da + i] = data[i]; an out-of-range index raises, modelled as
    none. -/
def storeGo (data : List Byte) (da : Nat) : Nat → Nat → Mem → Option Mem
  | _, 0, m => some m
  | i, count + 1, m =>
    match data[i]? with
    | none => none
    | some b => storeGo data da (i + 1) count (memWrite m (da + i) b)

/-- Store data[0..ds) at addresses da..da+ds-1. -/
def storeBytes (m : Mem) (da : Nat) (data : List Byte) (ds : Nat) : Option Mem :=
  storeGo data da 0 ds m

/-- The response header built by _handle_write:
    SumiCmd.from_fields(cmd_type=UMI_RESP_WRITE, size=0, len=0, eom=1),
    every unmentioned field defaulting to zero. -/
def writeRespCmd : SumiCmd :=
  { cmd_type := UMI_RESP_WRITE, size := 0, len := 0, eom := 1 }

/-- The response transaction built by _handle_write: swapped addresses and a
    single zero byte of payload. -/
def writeResp (t : SumiTransaction) : SumiTransaction :=
  { cmd := writeRespCmd, da := t.sa, sa := t.da, data := [0],
    addr_width := t.addr_width }

/-- UmiMemoryDevice._handle_write: store data_size = (len + 1) <<< size bytes
    of payload at the destination address, then optionally build the write
    acknowledgment; the returned list holds the transactions appended to the
    driver. -/
def handleWrite (m : Mem) (t : SumiTransaction) (send_response : Bool) :
    Option (Mem × List SumiTransaction) :=
  let data_size := (t.cmd.len + 1) <<< t.cmd.size
  match storeBytes m t.da t.data data_size with
  | none => none
  | some m2 => some (m2, if send_response then [writeResp t] else [])

/-- Modelled from the spec: the read-response transaction container built by
    _handle_read (tumi.py is not among the provided sources); it carries the
    response header, the swapped addresses and the fetched payload, before
    the downstream transport chunking. -/
structure TumiTransaction where
  cmd : SumiCmd
  da : Nat
  sa : Nat
  data : List Byte
deriving DecidableEq

/-- Fetch n bytes starting at addr, absent addresses reading as zero
    (memory.get(addr + i, 0)). -/
def memRead (m : Mem) (addr n : Nat) : List Byte :=
  (List.range n).map (fun i => (m (addr + i)).getD 0)

/-- UmiMemoryDevice._handle_read: fetch data_size bytes from the store and
    build the read response with size and len copied from the request, eom set,
    and swapped addresses. -/
def handleRead (m : Mem) (t : SumiTransaction) : TumiTransaction :=
  let data_size := (t.cmd.len + 1) <<< t.cmd.size
  { cmd := { cmd_type := UMI_RESP_READ, size := t.cmd.size, len := t.cmd.len,
             eom := 1 },
    da := t.sa, sa := t.da, data := memRead m t.da data_size }

/-- The observable effect of handling one transaction: the store afterwards,
    the SumiTransactions appended directly to the driver (write acks), the
    read responses handed to the downstream tumi-to-sumi chunker, and the
    number of warnings logged. -/
structure DeviceResult where
  mem : Mem
  responses : List SumiTransaction
  readResponses : List TumiTransaction
  warnings : Nat

/-- UmiMemoryDevice._on_transaction: dispatch on the opcode; hasLog tells
    whether a logger is attached (the warning is only emitted when it is). -/
def onTransaction (hasLog : Bool) (m : Mem) (t : SumiTransaction) :
    Option DeviceResult :=
  if t.cmd.cmd_type = UMI_REQ_WRITE then
    (handleWrite m t true).map (fun r => ⟨r.1, r.2, [], 0⟩)
  else if t.cmd.cmd_type = UMI_REQ_POSTED then
    (handleWrite m t false).map (fun r => ⟨r.1, r.2, [], 0⟩)
  else if t.cmd.cmd_type = UMI_REQ_READ then
    some ⟨m, [], [handleRead m t], 0⟩
  else
    some ⟨m, [], [], if hasLog then 1 else 0⟩

/-! ### Helper lemmas -/

/-- The handlers' data_size expression (len + 1) <<< size equals
    total_bytes = (1 <<< size) * (len + 1). -/
theorem data_size_eq_total_bytes (c : SumiCmd) :
    (c.len + 1) <<< c.size = c.total_bytes := by
  simp [SumiCmd.total_bytes, Nat.shiftLeft_eq, Nat.mul_comm]

/-- total_bytes is always positive: len + 1 words of 2 ^ size bytes each. -/
theorem total_bytes_pos (c : SumiCmd) : 0 < c.total_bytes := by
  have h2 : 0 < 2 ^ c.size := Nat.pos_pow_of_pos _ (by omega)
  simp only [SumiCmd.total_bytes, Nat.shiftLeft_eq, Nat.one_mul]
  exact Nat.mul_pos h2 (by omega)

/-- memWrite leaves every other address alone. -/
theorem memWrite_ne (m : Mem) (a v x : Nat) (h : x ≠ a) :
    memWrite m a v x = m x := by
  simp [memWrite, h]

/-- The write loop succeeds when the indexed range fits in the payload, and
    the resulting store holds data[i + j] at da + (i + j) for each of the
    count iterations while every other address is untouched. -/
theorem storeGo_spec (data : List Byte) (da : Nat) :
    ∀ count i m, i + count ≤ data.length →
      ∃ m2, storeGo data da i count m = some m2
        ∧ (∀ j, j < count → m2 (da + (i + j)) = data[i + j]?)
        ∧ (∀ a, (∀ j, j < count → a ≠ da + (i + j)) → m2 a = m a) := by
  intro count
  induction count with
  | zero =>
    intro i m _
    exact ⟨m, rfl, fun j hj => absurd hj (by omega), fun a _ => rfl⟩
  | succ c ih =>
    intro i m hle
    have hi : i < data.length := by omega
    have hget : data[i]? = some data[i] := List.getElem?_eq_getElem hi
    obtain ⟨m2, heq, hset, hun⟩ :=
      ih (i + 1) (memWrite m (da + i) data[i]) (by omega)
    refine ⟨m2, ?_, ?_, ?_⟩
    · simp only [storeGo, hget]
      exact heq
    · intro j hj
      match j with
      | 0 =>
        have huntouched : m2 (da + (i + 0)) = memWrite m (da + i) data[i] (da + (i + 0)) :=
          hun _ (fun j2 hj2 => by omega)
        rw [huntouched]
        simp [memWrite, hget]
      | j2 + 1 =>
        have hidx : i + (j2 + 1) = (i + 1) + j2 := by omega
        rw [hidx]
        exact hset j2 (by omega)
    · intro a ha
      have h1 : m2 a = memWrite m (da + i) data[i] a :=
        hun a (fun j2 hj2 => by
          have := ha (j2 + 1) (by omega)
          omega)
      rw [h1]
      exact memWrite_ne _ _ _ _ (by have := ha 0 (by omega); omega)

/-- storeBytes succeeds whenever ds bytes of payload exist, stores data[i]
    at da + i for every i < ds and leaves every other address unchanged. -/
theorem storeBytes_spec (m : Mem) (da : Nat) (data : List Byte) (ds : Nat)
    (hle : ds ≤ data.length) :
    ∃ m2, storeBytes m da data ds = some m2
      ∧ (∀ i, i < ds → m2 (da + i) = data[i]?)
      ∧ (∀ a, (∀ i, i < ds → a ≠ da + i) → m2 a = m a) := by
  obtain ⟨m2, heq, hset, hun⟩ := storeGo_spec data da ds 0 m (by omega)
  refine ⟨m2, heq, ?_, ?_⟩
  · intro i hi
    have := hset i hi
    simpa using this
  · intro a ha
    exact hun a (fun j hj => by simpa using ha j hj)

/-- The write loop is total exactly when there is nothing to do or the
    indexed range fits in the payload. -/
theorem storeGo_isSome_iff (data : List Byte) (da : Nat) :
    ∀ count i m, (storeGo data da i count m).isSome = true
      ↔ (count = 0 ∨ i + count ≤ data.length) := by
  intro count
  induction count with
  | zero =>
    intro i m
    simp [storeGo]
  | succ c ih =>
    intro i m
    cases hget : data[i]? with
    | none =>
      have hlen : data.length ≤ i := by
        by_contra hcon
        rw [List.getElem?_eq_getElem (by omega)] at hget
        exact Option.noConfusion hget
      simp only [storeGo, hget]
      simp
      omega
    | some b =>
      have hlen : i < data.length := by
        by_contra hcon
        rw [List.getElem?_eq_none (by omega)] at hget
        exact Option.noConfusion hget
      simp only [storeGo, hget]
      rw [ih]
      omega

/-! ### C1: trunc_and_pad_zeros -/

/-- C1 (code_bug evidence): trunc_and_pad_zeros on a transaction whose
    total_bytes is 2 but whose payload is the single byte 171 leaves the
    payload as [171] of length 1, not a zero-padded sequence of length 2:
    the source subtracts data_len from len(data) instead of the reverse, so
    a short payload is never padded (and a long one keeps its full length
    with zeros prepended). -/
theorem trunc_and_pad_zeros_short_payload_stays_short :
    (SumiTransaction.trunc_and_pad_zeros
        ⟨{ cmd_type := UMI_REQ_WRITE, size := 0, len := 1 }, 0, 0, [171], 64⟩).data
      = [171]
    ∧ ({ cmd_type := UMI_REQ_WRITE, size := 0, len := 1 } : SumiCmd).total_bytes = 2
    ∧ (SumiTransaction.trunc_and_pad_zeros
        ⟨{ cmd_type := UMI_REQ_WRITE, size := 0, len := 1 }, 0, 0, [171], 64⟩).data.length
      ≠ 2 := by
  decide

/-! ### C2: equality for non-RESP_WRITE opcodes -/

/-- C2 (counterexample): two read-request transactions with identical packed
    headers, identical serialized headers and identical payload prefixes up
    to total_bytes = 1 compare unequal, because the source compares the full
    payload rather than payload[:total_bytes]; the byte at index 1 changes
    the verdict. -/
theorem eq_counterexample_tail_byte_matters :
    (SumiTransaction.mk { cmd_type := UMI_REQ_READ } 0 0 [1, 2] 64).cmd.pack
      = (SumiTransaction.mk { cmd_type := UMI_REQ_READ } 0 0 [1, 3] 64).cmd.pack
    ∧ (SumiTransaction.mk { cmd_type := UMI_REQ_READ } 0 0 [1, 2] 64).cmd.cmd_type
      ≠ UMI_RESP_WRITE
    ∧ ((SumiTransaction.mk { cmd_type := UMI_REQ_READ } 0 0 [1, 2] 64).header_to_bytes
        ++ [1, 2].take ({ cmd_type := UMI_REQ_READ } : SumiCmd).total_bytes)
      = ((SumiTransaction.mk { cmd_type := UMI_REQ_READ } 0 0 [1, 3] 64).header_to_bytes
        ++ [1, 3].take ({ cmd_type := UMI_REQ_READ } : SumiCmd).total_bytes)
    ∧ SumiTransaction.eq (SumiTransaction.mk { cmd_type := UMI_REQ_READ } 0 0 [1, 2] 64)
        (SumiTransaction.mk { cmd_type := UMI_REQ_READ } 0 0 [1, 3] 64) = false := by
  decide

/-- C2 (amended): for transactions with identical packed headers and an
    opcode other than UMI_RESP_WRITE, equality holds iff the serialized
    header concatenated with the FULL payload is byte-identical on both
    sides; bytes at or beyond total_bytes do take part in the comparison. -/
theorem eq_iff_full_packet (a b : SumiTransaction)
    (hpack : a.cmd.pack = b.cmd.pack)
    (hop : a.cmd.cmd_type ≠ UMI_RESP_WRITE) :
    SumiTransaction.eq a b = true
      ↔ a.header_to_bytes ++ a.data = b.header_to_bytes ++ b.data := by
  simp [SumiTransaction.eq, hpack, hop]

/-- Witness for eq_iff_full_packet at concrete read responses differing in
    one payload byte. -/
theorem eq_iff_full_packet_witness :
    SumiTransaction.eq (SumiTransaction.mk { cmd_type := UMI_RESP_READ } 4 5 [9] 64)
        (SumiTransaction.mk { cmd_type := UMI_RESP_READ } 4 5 [8] 64) = true
      ↔ (SumiTransaction.mk { cmd_type := UMI_RESP_READ } 4 5 [9] 64).header_to_bytes
          ++ [9]
        = (SumiTransaction.mk { cmd_type := UMI_RESP_READ } 4 5 [8] 64).header_to_bytes
          ++ [8] :=
  eq_iff_full_packet _ _ (by decide) (by decide)

/-! ### C8: equality for RESP_WRITE -/

/-- C8: for transactions with identical packed headers and the
    acknowledged-write-response opcode, equality holds iff the destination
    addresses are equal; neither payload nor source address takes part. -/
theorem eq_resp_write_iff_da (a b : SumiTransaction)
    (hpack : a.cmd.pack = b.cmd.pack)
    (hop : a.cmd.cmd_type = UMI_RESP_WRITE) :
    SumiTransaction.eq a b = true ↔ a.da = b.da := by
  simp [SumiTransaction.eq, hpack, hop]

/-- Witness for eq_resp_write_iff_da: same destination address, different
    payloads and different source addresses, still equal. -/
theorem eq_resp_write_iff_da_witness :
    SumiTransaction.eq (SumiTransaction.mk { cmd_type := UMI_RESP_WRITE } 7 1 [1, 2] 64)
        (SumiTransaction.mk { cmd_type := UMI_RESP_WRITE } 7 2 [9] 64) = true
      ↔ (7 : Nat) = 7 :=
  eq_resp_write_iff_da _ _ (by decide) (by decide)

/-! ### C9: opcode classification -/

/-- C9 (counterexample): opcode 0x00 (UMI_INVALID) classifies as neither a
    request nor a response, so the two classifications do not cover the
    opcode space. -/
theorem invalid_opcode_neither_request_nor_response :
    is_request UMI_INVALID = false ∧ is_response UMI_INVALID = false := by
  decide

/-- C9 (amended): is_request and is_response are mutually exclusive: no
    opcode value classifies as both; the partition part of the claim fails
    (opcode 0 classifies as neither). -/
theorem is_request_is_response_exclusive (v : Nat) :
    (is_request v && is_response v) = false := by
  by_cases h : v ∈ [UMI_REQ_READ, UMI_REQ_WRITE, UMI_REQ_POSTED, UMI_REQ_RDMA,
      UMI_REQ_ATOMIC, UMI_REQ_USER0, UMI_REQ_FUTURE0, UMI_REQ_ERROR, UMI_REQ_LINK]
  · have h2 : v ∉ [UMI_RESP_READ, UMI_RESP_WRITE, UMI_RESP_USER0, UMI_RESP_USER1,
        UMI_RESP_FUTURE0, UMI_RESP_FUTURE1, UMI_RESP_LINK] := by
      simp only [List.mem_cons, List.not_mem_nil, or_false] at h
      rcases h with rfl | rfl | rfl | rfl | rfl | rfl | rfl | rfl | rfl <;> decide
    simp [is_request, is_response, h, h2]
  · simp [is_request, h]

/-! ### C7: unhandled opcodes -/

/-- C7: a transaction whose opcode is none of the three handled request
    opcodes leaves the store untouched, appends no response of either kind,
    and produces exactly one warning when a logger is attached; the handler
    returns normally, so the device keeps serving later requests. -/
theorem unhandled_opcode_no_effect (m : Mem) (t : SumiTransaction)
    (h1 : t.cmd.cmd_type ≠ UMI_REQ_WRITE)
    (h2 : t.cmd.cmd_type ≠ UMI_REQ_POSTED)
    (h3 : t.cmd.cmd_type ≠ UMI_REQ_READ) :
    onTransaction true m t = some ⟨m, [], [], 1⟩ := by
  simp [onTransaction, h1, h2, h3]

/-- Witness for unhandled_opcode_no_effect at the atomic request opcode. -/
theorem unhandled_opcode_no_effect_witness :
    onTransaction true emptyMem
        (SumiTransaction.mk { cmd_type := UMI_REQ_ATOMIC } 0 0 [] 64)
      = some ⟨emptyMem, [], [], 1⟩ :=
  unhandled_opcode_no_effect emptyMem _ (by decide) (by decide) (by decide)

/-! ### C3: acknowledged writes -/

/-- C3: handling an acknowledged write whose payload covers total_bytes
    stores payload[i] at destination_address + i for every i < total_bytes,
    leaves every other store address unchanged, and appends exactly the one
    write acknowledgment directly to the driver (readResponses stays empty,
    so nothing goes through the downstream chunker), with opcode
    UMI_RESP_WRITE, size 0, len 0, eom 1, swapped addresses and a single
    zero payload byte. -/
theorem acked_write_stores_and_responds (log : Bool) (m : Mem)
    (t : SumiTransaction)
    (hop : t.cmd.cmd_type = UMI_REQ_WRITE)
    (hlen : t.cmd.total_bytes ≤ t.data.length) :
    ∃ m2, onTransaction log m t = some ⟨m2, [writeResp t], [], 0⟩
      ∧ (∀ i, i < t.cmd.total_bytes → m2 (t.da + i) = t.data[i]?)
      ∧ (∀ a, (∀ i, i < t.cmd.total_bytes → a ≠ t.da + i) → m2 a = m a)
      ∧ (writeResp t).cmd.cmd_type = UMI_RESP_WRITE
      ∧ (writeResp t).cmd.size = 0
      ∧ (writeResp t).cmd.len = 0
      ∧ (writeResp t).cmd.eom = 1
      ∧ (writeResp t).da = t.sa
      ∧ (writeResp t).sa = t.da
      ∧ (writeResp t).data = [0] := by
  obtain ⟨m2, heq, hset, hun⟩ := storeBytes_spec m t.da t.data t.cmd.total_bytes hlen
  refine ⟨m2, ?_, hset, hun, rfl, rfl, rfl, rfl, rfl, rfl, rfl⟩
  simp [onTransaction, hop, handleWrite, data_size_eq_total_bytes, heq]

/-- Witness for acked_write_stores_and_responds: a two-byte write at
    address 10. -/
theorem acked_write_stores_and_responds_witness :
    ∃ m2, onTransaction true emptyMem
        (SumiTransaction.mk { cmd_type := UMI_REQ_WRITE, size := 0, len := 1 } 10 99 [7, 8] 64)
        = some ⟨m2,
            [writeResp (SumiTransaction.mk { cmd_type := UMI_REQ_WRITE, size := 0, len := 1 } 10 99 [7, 8] 64)],
            [], 0⟩
      ∧ (∀ i, i < ({ cmd_type := UMI_REQ_WRITE, size := 0, len := 1 } : SumiCmd).total_bytes →
          m2 (10 + i) = [7, 8][i]?)
      ∧ (∀ a, (∀ i, i < ({ cmd_type := UMI_REQ_WRITE, size := 0, len := 1 } : SumiCmd).total_bytes →
          a ≠ 10 + i) → m2 a = emptyMem a)
      ∧ (writeResp (SumiTransaction.mk { cmd_type := UMI_REQ_WRITE, size := 0, len := 1 } 10 99 [7, 8] 64)).cmd.cmd_type = UMI_RESP_WRITE
      ∧ (writeResp (SumiTransaction.mk { cmd_type := UMI_REQ_WRITE, size := 0, len := 1 } 10 99 [7, 8] 64)).cmd.size = 0
      ∧ (writeResp (SumiTransaction.mk { cmd_type := UMI_REQ_WRITE, size := 0, len := 1 } 10 99 [7, 8] 64)).cmd.len = 0
      ∧ (writeResp (SumiTransaction.mk { cmd_type := UMI_REQ_WRITE, size := 0, len := 1 } 10 99 [7, 8] 64)).cmd.eom = 1
      ∧ (writeResp (SumiTransaction.mk { cmd_type := UMI_REQ_WRITE, size := 0, len := 1 } 10 99 [7, 8] 64)).da = 99
      ∧ (writeResp (SumiTransaction.mk { cmd_type := UMI_REQ_WRITE, size := 0, len := 1 } 10 99 [7, 8] 64)).sa = 10
      ∧ (writeResp (SumiTransaction.mk { cmd_type := UMI_REQ_WRITE, size := 0, len := 1 } 10 99 [7, 8] 64)).data = [0] :=
  acked_write_stores_and_responds true emptyMem _ (by decide) (by decide)

/-! ### C4: reads -/

/-- C4: handling a read leaves the store exactly as it was and hands the
    downstream chunker one response transaction whose payload has exactly
    total_bytes bytes, byte i being the store's value at
    destination_address + i (zero when that address was never written), with
    opcode UMI_RESP_READ, size and len copied from the request, eom 1, and
    the request's addresses swapped. -/
theorem read_fetches_and_responds (log : Bool) (m : Mem) (t : SumiTransaction)
    (hop : t.cmd.cmd_type = UMI_REQ_READ) :
    onTransaction log m t = some ⟨m, [], [handleRead m t], 0⟩
      ∧ (handleRead m t).data.length = t.cmd.total_bytes
      ∧ (∀ i, i < t.cmd.total_bytes →
          (handleRead m t).data[i]? = some ((m (t.da + i)).getD 0))
      ∧ (handleRead m t).cmd.cmd_type = UMI_RESP_READ
      ∧ (handleRead m t).cmd.size = t.cmd.size
      ∧ (handleRead m t).cmd.len = t.cmd.len
      ∧ (handleRead m t).cmd.eom = 1
      ∧ (handleRead m t).da = t.sa
      ∧ (handleRead m t).sa = t.da := by
  refine ⟨?_, ?_, ?_, rfl, rfl, rfl, rfl, rfl, rfl⟩
  · simp [onTransaction, hop, UMI_REQ_READ, UMI_REQ_WRITE, UMI_REQ_POSTED]
  · simp [handleRead, memRead, data_size_eq_total_bytes]
  · intro i hi
    rw [← data_size_eq_total_bytes] at hi
    simp [handleRead, memRead, List.getElem?_map, List.getElem?_range, hi]

/-- Witness for read_fetches_and_responds: a four-byte read at address 20
    over the empty store. -/
theorem read_fetches_and_responds_witness :
    onTransaction true emptyMem
        (SumiTransaction.mk { cmd_type := UMI_REQ_READ, size := 1, len := 1 } 20 77 [] 64)
      = some ⟨emptyMem, [],
          [handleRead emptyMem
            (SumiTransaction.mk { cmd_type := UMI_REQ_READ, size := 1, len := 1 } 20 77 [] 64)], 0⟩
      ∧ (handleRead emptyMem
          (SumiTransaction.mk { cmd_type := UMI_REQ_READ, size := 1, len := 1 } 20 77 [] 64)).data.length
        = ({ cmd_type := UMI_REQ_READ, size := 1, len := 1 } : SumiCmd).total_bytes
      ∧ (∀ i, i < ({ cmd_type := UMI_REQ_READ, size := 1, len := 1 } : SumiCmd).total_bytes →
          (handleRead emptyMem
            (SumiTransaction.mk { cmd_type := UMI_REQ_READ, size := 1, len := 1 } 20 77 [] 64)).data[i]?
          = some ((emptyMem (20 + i)).getD 0))
      ∧ (handleRead emptyMem
          (SumiTransaction.mk { cmd_type := UMI_REQ_READ, size := 1, len := 1 } 20 77 [] 64)).cmd.cmd_type
        = UMI_RESP_READ
      ∧ (handleRead emptyMem
          (SumiTransaction.mk { cmd_type := UMI_REQ_READ, size := 1, len := 1 } 20 77 [] 64)).cmd.size = 1
      ∧ (handleRead emptyMem
          (SumiTransaction.mk { cmd_type := UMI_REQ_READ, size := 1, len := 1 } 20 77 [] 64)).cmd.len = 1
      ∧ (handleRead emptyMem
          (SumiTransaction.mk { cmd_type := UMI_REQ_READ, size := 1, len := 1 } 20 77 [] 64)).cmd.eom = 1
      ∧ (handleRead emptyMem
          (SumiTransaction.mk { cmd_type := UMI_REQ_READ, size := 1, len := 1 } 20 77 [] 64)).da = 77
      ∧ (handleRead emptyMem
          (SumiTransaction.mk { cmd_type := UMI_REQ_READ, size := 1, len := 1 } 20 77 [] 64)).sa = 20 :=
  read_fetches_and_responds true emptyMem _ (by decide)

/-! ### C5: posted versus acknowledged writes -/

/-- Replace only the opcode of a transaction's header. -/
def withOpcode (t : SumiTransaction) (v : Nat) : SumiTransaction :=
  { t with cmd := { t.cmd with cmd_type := v } }

/-- C5: on the same store and the same size/len/address/payload, the
    acknowledged write and the posted write produce the identical mutated
    store; the acknowledged write appends exactly one response transaction
    and the posted write appends none. -/
theorem posted_write_same_store_no_response (log : Bool) (m : Mem)
    (t : SumiTransaction)
    (hlen : t.cmd.total_bytes ≤ t.data.length) :
    ∃ m2,
      onTransaction log m (withOpcode t UMI_REQ_WRITE)
          = some ⟨m2, [writeResp (withOpcode t UMI_REQ_WRITE)], [], 0⟩
      ∧ onTransaction log m (withOpcode t UMI_REQ_POSTED)
          = some ⟨m2, [], [], 0⟩ := by
  obtain ⟨m2, heq, -, -⟩ := storeBytes_spec m t.da t.data t.cmd.total_bytes hlen
  have heq2 : storeBytes m t.da t.data ((t.cmd.len + 1) <<< t.cmd.size) = some m2 := by
    rw [data_size_eq_total_bytes]
    exact heq
  refine ⟨m2, ?_, ?_⟩ <;>
    simp [onTransaction, withOpcode, handleWrite, heq2, UMI_REQ_WRITE, UMI_REQ_POSTED]

/-- Witness for posted_write_same_store_no_response: one byte at address 3. -/
theorem posted_write_same_store_no_response_witness :
    ∃ m2,
      onTransaction true emptyMem
          (withOpcode (SumiTransaction.mk { cmd_type := 0 } 3 50 [42] 64) UMI_REQ_WRITE)
          = some ⟨m2,
              [writeResp (withOpcode (SumiTransaction.mk { cmd_type := 0 } 3 50 [42] 64) UMI_REQ_WRITE)],
              [], 0⟩
      ∧ onTransaction true emptyMem
          (withOpcode (SumiTransaction.mk { cmd_type := 0 } 3 50 [42] 64) UMI_REQ_POSTED)
          = some ⟨m2, [], [], 0⟩ :=
  posted_write_same_store_no_response true emptyMem _ (by decide)

/-! ### C10: write totality precondition -/

/-- C10: handling an acknowledged or posted write reaches the out-of-range
    payload access (modelled as none) exactly when the payload is shorter
    than total_bytes; with a payload of at least total_bytes it always
    completes. -/
theorem write_requires_full_payload (log : Bool) (m : Mem)
    (t : SumiTransaction)
    (hop : t.cmd.cmd_type = UMI_REQ_WRITE ∨ t.cmd.cmd_type = UMI_REQ_POSTED) :
    onTransaction log m t = none ↔ t.data.length < t.cmd.total_bytes := by
  have hpos := total_bytes_pos t.cmd
  have hiff := storeGo_isSome_iff t.data t.da t.cmd.total_bytes 0 m
  have hsb : storeBytes m t.da t.data ((t.cmd.len + 1) <<< t.cmd.size)
      = storeGo t.data t.da 0 t.cmd.total_bytes m := by
    rw [data_size_eq_total_bytes]
    rfl
  have key : ∀ send, (handleWrite m t send = none ↔ t.data.length < t.cmd.total_bytes) := by
    intro send
    cases hst : storeGo t.data t.da 0 t.cmd.total_bytes m with
    | none =>
      have hno : ¬ (t.cmd.total_bytes = 0 ∨ 0 + t.cmd.total_bytes ≤ t.data.length) := by
        rw [← hiff, hst]
        simp
      simp only [handleWrite, hsb, hst]
      constructor
      · intro _
        omega
      · intro _
        trivial
    | some m2 =>
      have hyes : t.cmd.total_bytes = 0 ∨ 0 + t.cmd.total_bytes ≤ t.data.length := by
        rw [← hiff, hst]
        rfl
      simp only [handleWrite, hsb, hst]
      constructor
      · intro hcon
        exact Option.noConfusion hcon
      · intro hshort
        omega
  rcases hop with h | h
  · have hdisp : onTransaction log m t
        = (handleWrite m t true).map (fun r => (⟨r.1, r.2, [], 0⟩ : DeviceResult)) := by
      simp [onTransaction, h]
    have hmap : onTransaction log m t = none ↔ handleWrite m t true = none := by
      rw [hdisp]
      cases handleWrite m t true <;> simp
    rw [hmap]
    exact key true
  · have hdisp : onTransaction log m t
        = (handleWrite m t false).map (fun r => (⟨r.1, r.2, [], 0⟩ : DeviceResult)) := by
      simp [onTransaction, h, UMI_REQ_WRITE, UMI_REQ_POSTED]
    have hmap : onTransaction log m t = none ↔ handleWrite m t false = none := by
      rw [hdisp]
      cases handleWrite m t false <;> simp
    rw [hmap]
    exact key false

/-- Witness for write_requires_full_payload: one payload byte against
    total_bytes = 2 makes the handler fail. -/
theorem write_requires_full_payload_witness :
    onTransaction true emptyMem
        (SumiTransaction.mk { cmd_type := UMI_REQ_WRITE, size := 0, len := 1 } 0 0 [7] 64)
      = none
    ↔ ([7] : List Byte).length
      < ({ cmd_type := UMI_REQ_WRITE, size := 0, len := 1 } : SumiCmd).total_bytes :=
  write_requires_full_payload true emptyMem _ (Or.inl (by decide))

/-! ### C6: transport chunking -/

/-- chunksGo of the empty list is empty for any fuel. -/
theorem chunksGo_nil (k : Nat) : ∀ fuel, chunksGo k fuel [] = [] := by
  intro fuel
  cases fuel <;> rfl

/-- Concatenating the chunks gives back the original list. -/
theorem chunksGo_flatten (k : Nat) (hk : 0 < k) :
    ∀ fuel l, l.length ≤ fuel → (chunksGo k fuel l).flatten = l := by
  intro fuel
  induction fuel with
  | zero =>
    intro l hl
    have : l = [] := List.eq_nil_of_length_eq_zero (by omega)
    subst this
    rfl
  | succ fuel ih =>
    intro l hl
    cases l with
    | nil => rfl
    | cons a rest =>
      have hdrop : ((a :: rest).drop k).length ≤ fuel := by
        rw [List.length_drop]
        simp only [List.length_cons] at hl ⊢
        omega
      simp only [chunksGo, List.flatten_cons, ih _ hdrop, List.take_append_drop]

/-- One step of the ceiling-division recurrence: removing one k-sized chunk
    from n elements leaves one fewer chunk. -/
theorem ceil_div_step (k n : Nat) (hk : 0 < k) (hn : 1 ≤ n) :
    (n - k + k - 1) / k + 1 = (n + k - 1) / k := by
  have hinner : (n - k + k - 1) / k = (n - 1) / k := by
    by_cases hle : k ≤ n
    · congr 1
      omega
    · rw [show n - k + k - 1 = k - 1 by omega, Nat.div_eq_of_lt (by omega),
        Nat.div_eq_of_lt (by omega)]
  rw [hinner, show n + k - 1 = (n - 1) + k by omega, Nat.add_div_right _ hk]

/-- The number of chunks is the ceiling of the length divided by k. -/
theorem chunksGo_length (k : Nat) (hk : 0 < k) :
    ∀ fuel l, l.length ≤ fuel →
      (chunksGo k fuel l).length = (l.length + k - 1) / k := by
  intro fuel
  induction fuel with
  | zero =>
    intro l hl
    have : l = [] := List.eq_nil_of_length_eq_zero (by omega)
    subst this
    simp [chunksGo_nil, Nat.div_eq_of_lt (show k - 1 < k by omega)]
  | succ fuel ih =>
    intro l hl
    cases l with
    | nil =>
      simp [chunksGo_nil, Nat.div_eq_of_lt (show k - 1 < k by omega)]
    | cons a rest =>
      have hdrop : ((a :: rest).drop k).length ≤ fuel := by
        rw [List.length_drop]
        simp only [List.length_cons] at hl ⊢
        omega
      simp only [chunksGo, List.length_cons, ih _ hdrop, List.length_drop]
      exact ceil_div_step k (rest.length + 1) hk (by omega)

/-- Every chunk has at most k bytes. -/
theorem chunksGo_mem_length_le (k : Nat) :
    ∀ fuel l c, c ∈ chunksGo k fuel l → c.length ≤ k := by
  intro fuel
  induction fuel with
  | zero =>
    intro l c hc
    simp [chunksGo] at hc
  | succ fuel ih =>
    intro l c hc
    cases l with
    | nil => simp [chunksGo] at hc
    | cons a rest =>
      simp only [chunksGo, List.mem_cons] at hc
      rcases hc with rfl | hc
      · simp
      · exact ih _ _ hc

/-- Every chunk except the last has exactly k bytes. -/
theorem chunksGo_dropLast_length (k : Nat) (hk : 0 < k) :
    ∀ fuel l, l.length ≤ fuel →
      ∀ c ∈ (chunksGo k fuel l).dropLast, c.length = k := by
  intro fuel
  induction fuel with
  | zero =>
    intro l hl c hc
    have : l = [] := List.eq_nil_of_length_eq_zero (by omega)
    subst this
    simp [chunksGo_nil] at hc
  | succ fuel ih =>
    intro l hl c hc
    cases l with
    | nil => simp [chunksGo_nil] at hc
    | cons a rest =>
      have hdrop : ((a :: rest).drop k).length ≤ fuel := by
        rw [List.length_drop]
        simp only [List.length_cons] at hl ⊢
        omega
      simp only [chunksGo] at hc
      cases hrest : chunksGo k fuel ((a :: rest).drop k) with
      | nil =>
        rw [hrest] at hc
        simp at hc
      | cons x xs =>
        rw [hrest, List.dropLast_cons₂, List.mem_cons] at hc
        rcases hc with rfl | hc
        · have hne : (a :: rest).drop k ≠ [] := by
            intro hcon
            rw [hcon, chunksGo_nil] at hrest
            exact List.noConfusion hrest
          have hklt : k < (a :: rest).length := by
            by_contra hcon
            exact hne (List.drop_eq_nil_of_le (by omega))
          simp only [List.length_cons] at hklt
          simp [List.length_take]
          omega
        · rw [← hrest] at hc
          exact ih _ hdrop _ hc

/-- padLast preserves the number of chunks. -/
theorem padLast_length (k : Nat) : ∀ l, (padLast k l).length = l.length := by
  intro l
  induction l with
  | nil => rfl
  | cons c cs ih =>
    cases cs with
    | nil => rfl
    | cons x xs => simp only [padLast, List.length_cons, ih]

/-- padLast appends only zero bytes, and only after the original
    concatenation. -/
theorem padLast_flatten (k : Nat) :
    ∀ l, ∃ zs, (padLast k l).flatten = l.flatten ++ zs ∧ ∀ b ∈ zs, b = 0 := by
  intro l
  induction l with
  | nil => exact ⟨[], by simp [padLast], by simp⟩
  | cons c cs ih =>
    cases cs with
    | nil =>
      refine ⟨List.replicate (k - c.length) 0, by simp [padLast], ?_⟩
      intro b hb
      exact List.eq_of_mem_replicate hb
    | cons x xs =>
      obtain ⟨zs, hz, hzero⟩ := ih
      exact ⟨zs, by simp only [padLast, List.flatten_cons, hz, List.append_assoc], hzero⟩

/-- After padding, every chunk has exactly k bytes, provided all chunks had
    at most k and all but the last exactly k. -/
theorem padLast_mem_length (k : Nat) :
    ∀ l, (∀ c ∈ l.dropLast, c.length = k) → (∀ c ∈ l, c.length ≤ k) →
      ∀ c ∈ padLast k l, c.length = k := by
  intro l
  induction l with
  | nil =>
    intro _ _ c hc
    simp [padLast] at hc
  | cons c cs ih =>
    intro hdrop hle c2 hc2
    cases cs with
    | nil =>
      simp only [padLast, List.mem_singleton] at hc2
      subst hc2
      have hcle : c.length ≤ k := hle c (by simp)
      simp [List.length_append, List.length_replicate]
      omega
    | cons x xs =>
      simp only [padLast, List.mem_cons] at hc2
      rcases hc2 with rfl | hc2
      · exact hdrop c2 (by rw [List.dropLast_cons₂]; exact List.mem_cons_self _ _)
      · refine ih ?_ ?_ c2 hc2
        · intro c3 hc3
          exact hdrop c3 (by rw [List.dropLast_cons₂]; exact List.mem_cons_of_mem _ hc3)
        · intro c3 hc3
          exact hle c3 (List.mem_cons_of_mem _ hc3)

/-- The number of frames equals the number of chunks. -/
theorem mkFrames_length (ov : Option Bool) (padded : List (List Byte)) :
    (mkFrames ov padded).length = padded.length := by
  simp [mkFrames]

/-- The frames carry exactly the chunks as data. -/
theorem mkFrames_map_data (ov : Option Bool) (padded : List (List Byte)) :
    (mkFrames ov padded).map (fun f => f.data) = padded := by
  rw [mkFrames, List.map_map]
  exact List.enum_map_snd padded

/-- The frames' last flags as a function of the index. -/
theorem mkFrames_map_last (ov : Option Bool) (padded : List (List Byte)) :
    (mkFrames ov padded).map (fun f => f.last)
      = (List.range padded.length).map
          (fun i => if i = padded.length - 1 then ov.getD true else false) := by
  rw [mkFrames, List.map_map,
    show ((fun f : VRDTransaction => f.last)
        ∘ (fun p : Nat × List Byte =>
            (⟨p.2, if p.1 = padded.length - 1 then ov.getD true else false⟩ : VRDTransaction)))
      = (fun i => if i = padded.length - 1 then ov.getD true else false) ∘ Prod.fst from rfl,
    ← List.map_map, List.enum_map_fst]

/-- An indicator map over range n is n - 1 falses followed by the chosen
    final value. -/
theorem range_lastflag (d : Bool) :
    ∀ n, 1 ≤ n →
      (List.range n).map (fun i => if i = n - 1 then d else false)
        = List.replicate (n - 1) false ++ [d] := by
  intro n hn
  obtain ⟨m, rfl⟩ : ∃ m, n = m + 1 := ⟨n - 1, by omega⟩
  rw [List.range_succ, List.map_append]
  have hfront : (List.range m).map (fun i => if i = m + 1 - 1 then d else false)
      = List.replicate m false := by
    have hmem : ∀ b ∈ (List.range m).map (fun i => if i = m + 1 - 1 then d else false),
        b = false := by
      intro b hb
      rw [List.mem_map] at hb
      obtain ⟨i, hi, rfl⟩ := hb
      rw [List.mem_range] at hi
      rw [if_neg (by omega)]
    have := List.eq_replicate_of_mem hmem
    simpa using this
  rw [hfront]
  simp

/-- C6 (counterexample): with the header excluded and an empty payload, raw
    is empty and to_lumi fails (the source subscripts chunks[-1] on an empty
    list) instead of returning the one zero-padded frame the minimum-one
    chunk count promises. -/
theorem to_lumi_empty_raw_fails :
    SumiTransaction.to_lumi
        (SumiTransaction.mk { cmd_type := UMI_REQ_READ } 0 0 [] 64) 1 false none
      = none := by
  decide

/-- C6 (amended): for frame_size at least 1 and nonempty raw (always the
    case when the header is included), to_lumi returns exactly
    ceil(len(raw)/frame_size) frames, each of exactly frame_size bytes, the
    concatenation of the frames being raw followed by zero bytes only, and
    the last flags being false everywhere except the final frame, which
    carries override_last when supplied and true otherwise; when raw is
    empty the call fails instead of returning one frame. -/
theorem to_lumi_spec (t : SumiTransaction) (fs : Nat) (inc_header : Bool)
    (ov : Option Bool) (hfs : 1 ≤ fs) (hraw : rawBytes t inc_header ≠ []) :
    ∃ frames, t.to_lumi fs inc_header ov = some frames
      ∧ frames.length = ((rawBytes t inc_header).length + fs - 1) / fs
      ∧ 1 ≤ frames.length
      ∧ (∀ f ∈ frames, f.data.length = fs)
      ∧ (∃ zs, (frames.map (fun f => f.data)).flatten = rawBytes t inc_header ++ zs
           ∧ ∀ b ∈ zs, b = 0)
      ∧ frames.map (fun f => f.last)
          = List.replicate (frames.length - 1) false ++ [ov.getD true] := by
  have hk : 0 < fs := hfs
  obtain ⟨a, rest, hcons⟩ : ∃ a rest, rawBytes t inc_header = a :: rest := by
    cases hr : rawBytes t inc_header with
    | nil => exact absurd hr hraw
    | cons a rest => exact ⟨a, rest, rfl⟩
  have hchunks : chunksGo fs (rawBytes t inc_header).length (rawBytes t inc_header)
      = (rawBytes t inc_header).take fs
        :: chunksGo fs rest.length ((rawBytes t inc_header).drop fs) := by
    rw [hcons]
    rfl
  have hone : 1 ≤ (padLast fs
      (chunksGo fs (rawBytes t inc_header).length (rawBytes t inc_header))).length := by
    rw [padLast_length, hchunks]
    simp
  refine ⟨mkFrames ov (padLast fs
      (chunksGo fs (rawBytes t inc_header).length (rawBytes t inc_header))),
    ?_, ?_, ?_, ?_, ?_, ?_⟩
  · rw [SumiTransaction.to_lumi, if_neg (by omega), hchunks]
  · rw [mkFrames_length, padLast_length, chunksGo_length fs hk _ _ (le_refl _)]
  · rw [mkFrames_length]
    exact hone
  · intro f hf
    have hdata : f.data ∈ padLast fs
        (chunksGo fs (rawBytes t inc_header).length (rawBytes t inc_header)) := by
      rw [← mkFrames_map_data ov (padLast fs
        (chunksGo fs (rawBytes t inc_header).length (rawBytes t inc_header)))]
      exact List.mem_map_of_mem _ hf
    refine padLast_mem_length fs _ ?_ ?_ f.data hdata
    · exact chunksGo_dropLast_length fs hk _ _ (le_refl _)
    · intro c hc
      exact chunksGo_mem_length_le fs _ _ c hc
  · obtain ⟨zs, hz, hzero⟩ := padLast_flatten fs
      (chunksGo fs (rawBytes t inc_header).length (rawBytes t inc_header))
    refine ⟨zs, ?_, hzero⟩
    rw [mkFrames_map_data, hz, chunksGo_flatten fs hk _ _ (le_refl _)]
  · rw [mkFrames_map_last, range_lastflag _ _ hone, mkFrames_length]

/-- Witness for to_lumi_spec: three payload bytes over two-byte frames with
    no header. -/
theorem to_lumi_spec_witness :
    ∃ frames, SumiTransaction.to_lumi
        (SumiTransaction.mk { cmd_type := UMI_REQ_READ, size := 0, len := 2 } 0 0 [1, 2, 3] 64)
        2 false none = some frames
      ∧ frames.length
        = ((rawBytes
            (SumiTransaction.mk { cmd_type := UMI_REQ_READ, size := 0, len := 2 } 0 0 [1, 2, 3] 64)
            false).length + 2 - 1) / 2
      ∧ 1 ≤ frames.length
      ∧ (∀ f ∈ frames, f.data.length = 2)
      ∧ (∃ zs, (frames.map (fun f => f.data)).flatten
            = rawBytes
                (SumiTransaction.mk { cmd_type := UMI_REQ_READ, size := 0, len := 2 } 0 0 [1, 2, 3] 64)
                false ++ zs
          ∧ ∀ b ∈ zs, b = 0)
      ∧ frames.map (fun f => f.last)
          = List.replicate (frames.length - 1) false ++ [(none : Option Bool).getD true] :=
  to_lumi_spec _ 2 false none (by omega) (by decide)

end Spec2Proof
